import Mathlib

/-!
# Verification of the ManGeRecipe crawler and query service

Shallow embedding of the resilient crawl-and-extract pipeline of the
ManGeRecipe repository (`10000recipe_final.py`, `10000recipe_optimized.py`,
`10000recipe_robust.py`, `api_server.py`, `data_analyzer.py`), together with
proofs about its request executor, session pool, aggregator, validator,
extractor, merge and query layers.

The transport is modelled as the list of outcomes the network would produce
for the successive attempts of one logical request; markup extraction is
modelled at the boundary of the already-selected text fragments, exactly as
the Python code receives them from its CSS selectors.
-/

namespace ManGeRecipe

/-! ## Transport outcomes

One attempt of `session.get` either yields an HTTP response with a status
code, or raises a transport-level exception (timeout, connection failure,
SSL failure …).  `requests`' `raise_for_status` raises `HTTPError` exactly
for status codes in `[400, 600)`. -/

/-- Outcome the transport produces for one fetch attempt. -/
inductive Outcome where
  | resp (status : Nat)
  | exc
deriving DecidableEq

/-- `response.raise_for_status()` raises exactly for `400 ≤ status < 600`. -/
def raisesForStatus (s : Nat) : Bool :=
  decide (400 ≤ s ∧ s < 600)

/-- Whether one attempt lands in the `except requests.exceptions.RequestException`
branch of `safe_request` (`10000recipe_final.py` lines 64–75): every
transport exception does, and a response does iff `raise_for_status` raises. -/
def attemptFails : Outcome → Bool
  | .exc => true
  | .resp s => raisesForStatus s

/-- The status returned to the caller when the attempt does not fail. -/
def statusOf : Outcome → Option Nat
  | .resp s => some s
  | .exc => none

/-- Observable trace of one `safe_request` call: the returned status (if
any), the number of fetch attempts issued, and the number of backoff sleeps
(`time.sleep(random.uniform(RETRY_DELAY_MIN, RETRY_DELAY_MAX))`) performed. -/
structure ReqTrace where
  result : Option Nat
  attempts : Nat
  sleeps : Nat
deriving DecidableEq

/-- `RecipeCrawler.safe_request` (`10000recipe_final.py` lines 59–76; the
same loop appears in `OptimizedRecipeCrawler.safe_request`).  The argument
lists the outcome the transport would give to each of the `max_retries`
loop iterations; the Python loop is

```
for attempt in range(max_retries):
    try:
        response = self.session.get(url, timeout=...)
        response.raise_for_status()
        return response
    except requests.exceptions.RequestException as e:
        if attempt < max_retries - 1:
            time.sleep(random.uniform(RETRY_DELAY_MIN, RETRY_DELAY_MAX))
        else:
            return None
return None
``` -/
def safe_request : List Outcome → ReqTrace
  | [] => ⟨none, 0, 0⟩
  | o :: rest =>
    if attemptFails o then
      match rest with
      | [] => ⟨none, 1, 0⟩
      | _ :: _ =>
        let r := safe_request rest
        ⟨r.result, r.attempts + 1, r.sleeps + 1⟩
    else ⟨statusOf o, 1, 0⟩

/-! ## The robust variant's session accounting

`RobustRecipeCrawler.safe_request` (`10000recipe_robust.py` lines 120–177)
takes a session from the pool with `get_session()` before its retry loop.
Success is `response.status_code == 200` and returns the response from
inside the loop; every exception type is caught and the loop continues;
`return_session(session)` is executed only after the loop has exhausted all
attempts, just before `return None`.  The second component below counts how
many times the checked-out session is handed back to the pool during the
call. -/
def robust_safe_request : List Outcome → Option Nat × Nat
  | [] => (none, 1)
  | o :: rest =>
    match o with
    | .resp s => if s = 200 then (some s, 0) else robust_safe_request rest
    | .exc => robust_safe_request rest

/-! ## The aggregator

`OptimizedRecipeCrawler.run_optimized` (`10000recipe_optimized.py` lines
302–334) collects completed batches with

```
for future in as_completed(future_to_batch):
    batch_recipes = future.result()
    with self.data_lock:
        self.food_data.extend(batch_recipes)
```

so the final store is the fold of list extension over the batches in
completion order. -/

/-- A listing-page record (`food_data` row). -/
structure SummaryRecord where
  ID : String
  Title : String
  Author : String
  View : String
  Image : String
deriving DecidableEq

/-- A detail-page record (`recipe_data` row). -/
structure DetailRecord where
  ID : String
  Serving : String
  Preparation_Time : String
  Difficulty : String
  Ingredient : String
  Condiment : String
deriving DecidableEq

/-- The aggregate store built by `run_optimized`'s `as_completed` loop:
`food_data.extend(batch)` for each completed batch, in completion order. -/
def runAggregate (batches : List (List SummaryRecord)) : List SummaryRecord :=
  batches.foldl (fun acc b => acc ++ b) []

/-- Number of records in the store carrying a given ID. -/
def countID (i : String) (l : List SummaryRecord) : Nat :=
  (l.filter (fun r => r.ID == i)).length

/-! ## The ID-based merge

`RecipeDataLoader.load_latest_data` (`api_server.py` line 107) and
`RecipeDataAnalyzer.__init__` (`data_analyzer.py` line 14) both build
`merged_df = pd.merge(food_df, recipe_df, on='ID', how='inner')`. -/

/-- A row of `merged_df`: the summary fields joined with the detail fields
of a common ID. -/
structure MergedRecord where
  ID : String
  Title : String
  Author : String
  View : String
  Image : String
  Serving : String
  Preparation_Time : String
  Difficulty : String
  Ingredient : String
  Condiment : String
deriving DecidableEq

/-- One joined row produced by `pd.merge` for a summary row and a detail
row agreeing on `ID`. -/
def mergeRows (f : SummaryRecord) (r : DetailRecord) : MergedRecord :=
  ⟨f.ID, f.Title, f.Author, f.View, f.Image,
    r.Serving, r.Preparation_Time, r.Difficulty, r.Ingredient, r.Condiment⟩

/-- `pd.merge(food_df, recipe_df, on='ID', how='inner')`: every pair of a
summary row and a detail row with equal `ID` contributes one joined row,
left rows in order. -/
def pd_merge_inner (foods : List SummaryRecord) (recipes : List DetailRecord) :
    List MergedRecord :=
  foods.flatMap (fun f => (recipes.filter (fun r => r.ID == f.ID)).map (mergeRows f))

/-! ## The validator

`RecipeCrawler.validate_data` (`10000recipe_final.py` lines 78–83,
identical in `10000recipe_optimized.py` lines 104–109):

```
for field in required_fields:
    if field not in data_dict or not data_dict[field] or \
       data_dict[field] in ['정보 없음', '제목 없음', '저자 없음']:
        return False
return True
```

A record is modelled as an association list from field names to string
values; a missing key is `data_dict`-absence. -/

/-- The sentinel values the validator rejects. -/
def sentinelValues : List String := ["정보 없음", "제목 없음", "저자 없음"]

/-- `validate_data(data_dict, required_fields)`. -/
def validate_data (data : List (String × String)) : List String → Bool
  | [] => true
  | f :: rest =>
    match data.lookup f with
    | none => false
    | some v =>
      if v == "" || sentinelValues.contains v then false else validate_data data rest

/-- The required fields a summary record is validated against
(`self.validate_data(recipe, ['ID', 'Title'])`, `10000recipe_final.py`
line 137). -/
def summaryRequired : List String := ["ID", "Title"]

/-- The per-item loop of `extract_recipe_list` appends a parsed record to
the page's result exactly when it validates, and keeps going otherwise
(`10000recipe_final.py` lines 136–138). -/
def filterValid (records : List (List (String × String))) :
    List (List (String × String)) :=
  records.filter (fun r => validate_data r summaryRequired)

/-! ## The minute-extraction regex

`RecipeDataLoader.search_recipes` (`api_server.py` lines 153–157) and
`RecipeDataAnalyzer.analyze_cooking_time` (`data_analyzer.py` lines 49–73)
both use `re` search of the pattern `(\d+)분` on `Preparation_Time`: the
leftmost run of digits immediately followed by the character '분', captured
as an integer.  A row without a match becomes `NaN` and is dropped by the
`<= max_time` comparison. -/

/-- Numeric value of a run of decimal digit characters. -/
def digitsToNat (l : List Char) : Nat :=
  l.foldl (fun n c => n * 10 + (c.toNat - '0'.toNat)) 0

/-- `re.search(r'(\d+)분', s)`: scan left to right; at a digit, take the
maximal digit run; if the character after it is '분' the group is that run,
otherwise advance one position (backtracking inside a digit run can never
succeed, because the character after any shorter prefix of the run is a
digit and not '분'). -/
def findMinute : List Char → Option Nat
  | [] => none
  | c :: rest =>
    if c.isDigit then
      if ((c :: rest).dropWhile Char.isDigit).head? = some '분' then
        some (digitsToNat ((c :: rest).takeWhile Char.isDigit))
      else findMinute rest
    else findMinute rest

/-- No adjacent pair (digit, '분') occurs in the list. -/
def pairFree : List Char → Bool
  | [] => true
  | [_] => true
  | a :: b :: rest => !(a.isDigit && b == '분') && pairFree (b :: rest)

/-- The list is empty or its last character is not a digit. -/
def lastOkay : List Char → Bool
  | [] => true
  | [a] => !a.isDigit
  | _ :: b :: rest => lastOkay (b :: rest)

/-- Specification-level reading of the regex result: `n` is the integer
value of the leftmost maximal digit run immediately preceding a '분'
character.  `pairFree pre` says no earlier digit is immediately followed by
'분' (leftmost-ness) and `lastOkay pre` says the run is maximal on the
left. -/
def FirstMinuteSpec (s : List Char) (n : Nat) : Prop :=
  ∃ pre run post, s = pre ++ run ++ '분' :: post ∧ run ≠ [] ∧
    run.all Char.isDigit = true ∧ pairFree pre = true ∧ lastOkay pre = true ∧
    digitsToNat run = n

/-- The string contains some digit immediately followed by '분'. -/
def HasMinutePair (s : List Char) : Prop :=
  ∃ pre d post, s = pre ++ d :: '분' :: post ∧ d.isDigit = true

/-! ## The query service

`RecipeDataLoader.search_recipes` (`api_server.py` lines 124–171) filters
the merged dataset by `query` (case-insensitive containment in Title or
Ingredient), `author` (case-insensitive containment), `difficulty`
(equality) and `max_time` (minute extraction), computes `total_count` on
the filtered frame, then slices rows `[(page-1)*per_page, page*per_page)`;
`get_recipes` (`api_server.py` lines 258–270) slices the unfiltered merged
frame the same way. -/

/-- Case-insensitive substring containment (`Series.str.contains(x,
case=False)` on a plain, non-metacharacter needle). -/
def listHas (needle : List Char) : List Char → Bool
  | [] => needle.isEmpty
  | c :: rest => needle.isPrefixOf (c :: rest) || listHas needle rest

/-- Python's `needle in hay` substring test. -/
def strHas (needle hay : String) : Bool :=
  listHas needle.data hay.data

/-- Case-insensitive containment of `needle` in `hay`. -/
def containsCI (needle hay : String) : Bool :=
  listHas (needle.data.map Char.toLower) (hay.data.map Char.toLower)

/-- `if query:` branch — Title or Ingredient contains the query. -/
def queryFilter (q : String) (df : List MergedRecord) : List MergedRecord :=
  if q = "" then df
  else df.filter (fun r => containsCI q r.Title || containsCI q r.Ingredient)

/-- `if author:` branch. -/
def authorFilter (a : String) (df : List MergedRecord) : List MergedRecord :=
  if a = "" then df else df.filter (fun r => containsCI a r.Author)

/-- `if difficulty:` branch — exact equality. -/
def difficultyFilter (d : String) (df : List MergedRecord) : List MergedRecord :=
  if d = "" then df else df.filter (fun r => r.Difficulty == d)

/-- `if max_time:` branch — keep rows whose extracted minute value is at
most `max_time`; rows without a match get `NaN` and are dropped. -/
def maxTimeFilter (mt : Option Nat) (df : List MergedRecord) : List MergedRecord :=
  match mt with
  | none => df
  | some t =>
    if t = 0 then df
    else df.filter (fun r =>
      match findMinute r.Preparation_Time.data with
      | some n => decide (n ≤ t)
      | none => false)

/-- The four filters of `search_recipes`, in source order. -/
def applyFilters (q a d : String) (mt : Option Nat) (df : List MergedRecord) :
    List MergedRecord :=
  maxTimeFilter mt (difficultyFilter d (authorFilter a (queryFilter q df)))

/-- `filtered_df.iloc[start_idx:end_idx]` with `start_idx = (page-1)*per_page`
and `end_idx = start_idx + per_page`. -/
def paginate (l : List MergedRecord) (page per : Nat) : List MergedRecord :=
  (l.drop ((page - 1) * per)).take per

/-- The body of `search_recipes`' JSON result. -/
structure SearchResult where
  total_count : Nat
  recipes : List MergedRecord
  page : Nat
  per_page : Nat
deriving DecidableEq

/-- `RecipeDataLoader.search_recipes`: filter, count, then paginate. -/
def search_recipes (q a d : String) (mt : Option Nat) (page per : Nat)
    (df : List MergedRecord) : SearchResult :=
  let filtered := applyFilters q a d mt df
  ⟨filtered.length, paginate filtered page per, page, per⟩

/-- The `/recipes` endpoint (`get_recipes`): slice of the merged frame. -/
def get_recipes (df : List MergedRecord) (page per : Nat) : List MergedRecord :=
  paginate df page per

/-! ## Ingredient extraction

`RecipeCrawler.extract_ingredients` (`10000recipe_final.py` lines 185–215,
identical in `10000recipe_optimized.py` lines 211–241).  A page is the list
of titled groups selected by `div.ready_ingre3 ul` (the title is the
cleaned text of `b.ready_ingre3_tt`, empty when absent; the items are the
cleaned texts of `li div.ingre_list_name a`), plus the optional fallback
`div.cont_ingre dl dt` / `dd` pair, present only when both elements
exist. -/

/-- One titled ingredient group (`div.ready_ingre3 ul`). -/
structure IngreGroup where
  title : String
  items : List String
deriving DecidableEq

/-- The detail page's ingredient markup, as seen by `extract_ingredients`. -/
structure IngrePage where
  groups : List IngreGroup
  contIngre : Option (String × String)
deriving DecidableEq

/-- `f"{title}: {joined_ingredients}"` with
`joined_ingredients = ', '.join(ingredients) if ingredients else '재료 없음'`. -/
def renderGroup (g : IngreGroup) : String :=
  g.title ++ ": " ++ (if g.items.isEmpty then "재료 없음" else String.intercalate ", " g.items)

/-- `'재료' in title or '레시피' in title`. -/
def ingTitleMatch (g : IngreGroup) : Bool :=
  strHas "재료" g.title || strHas "레시피" g.title

/-- `'양념' in title`. -/
def condTitleMatch (g : IngreGroup) : Bool :=
  strHas "양념" g.title

/-- One iteration of the `for item in ingred_items:` loop over the running
(ingredient_text, condiment_text) pair. -/
def groupStep (acc : String × String) (g : IngreGroup) : String × String :=
  if ingTitleMatch g then (renderGroup g, acc.2)
  else if condTitleMatch g then (acc.1, renderGroup g)
  else acc

/-- The whole loop, started from the sentinels. -/
def extractGroups (gs : List IngreGroup) : String × String :=
  gs.foldl groupStep ("재료 없음", "양념 없음")

/-- `extract_ingredients(soup)`: the structured strategy when titled groups
exist, otherwise the `div.cont_ingre` fallback, otherwise the sentinels. -/
def extract_ingredients (page : IngrePage) : String × String :=
  if page.groups.isEmpty then
    match page.contIngre with
    | some (t, b) => (t ++ ": " ++ b, "양념 없음")
    | none => ("재료 없음", "양념 없음")
  else extractGroups page.groups

/-! ## Sample records used as concrete test inputs -/

/-- A sample summary record with ID "1". -/
def sampleA : SummaryRecord := ⟨"1", "김치찌개", "cookA", "120", "img1"⟩

/-- A sample summary record with ID "2". -/
def sampleB : SummaryRecord := ⟨"2", "된장찌개", "cookB", "80", "img2"⟩

/-- A sample summary record with ID "3". -/
def sampleC : SummaryRecord := ⟨"3", "부대찌개", "cookC", "60", "img3"⟩

/-- A sample detail record with ID "1". -/
def sampleD1 : DetailRecord := ⟨"1", "2", "30분", "아무나", "재료: 김치", "양념: 설탕"⟩

/-- A sample detail record with ID "3". -/
def sampleD3 : DetailRecord := ⟨"3", "4", "60분", "초급", "재료: 햄", "양념: 고추장"⟩

/-- A merged record whose preparation time reads "30분 이내". -/
def demoTimed : MergedRecord :=
  ⟨"7", "빠른찌개", "cookT", "10", "img7", "2", "30분 이내", "아무나", "재료: 김치", "양념 없음"⟩

/-- A record that passes summary validation. -/
def goodRec : List (String × String) := [("ID", "123"), ("Title", "김치찌개")]

/-- A record whose Title is the "no title" sentinel. -/
def badRec : List (String × String) := [("ID", "456"), ("Title", "제목 없음")]

/-- An ingredient group whose title matches no keyword. -/
def demoNoMatch : IngreGroup := ⟨"기타", ["물"]⟩

/-- An ingredient group whose title contains '양념'. -/
def demoSauce : IngreGroup := ⟨"양념장", ["간장", "설탕"]⟩

/-! ## Helper lemmas -/

theorem runAggregate_append_acc (batches : List (List SummaryRecord))
    (acc : List SummaryRecord) :
    batches.foldl (fun acc b => acc ++ b) acc
      = acc ++ batches.foldl (fun acc b => acc ++ b) [] := by
  induction batches generalizing acc with
  | nil => simp
  | cons b bs ih =>
    simp only [List.foldl_cons]
    rw [ih (acc ++ b), ih ([] ++ b)]
    simp

theorem runAggregate_eq_join (batches : List (List SummaryRecord)) :
    runAggregate batches = batches.flatten := by
  induction batches with
  | nil => rfl
  | cons b bs ih =>
    simp only [runAggregate, List.foldl_cons, List.flatten] at *
    rw [runAggregate_append_acc, ih]
    simp

theorem safe_request_success (o : Outcome) (rest : List Outcome)
    (h : attemptFails o = false) :
    safe_request (o :: rest) = ⟨statusOf o, 1, 0⟩ := by
  simp [safe_request, h]

theorem safe_request_fail_last (o : Outcome) (h : attemptFails o = true) :
    safe_request [o] = ⟨none, 1, 0⟩ := by
  simp [safe_request, h]

theorem safe_request_fail_cons (o a : Outcome) (l : List Outcome)
    (h : attemptFails o = true) :
    safe_request (o :: a :: l) =
      ⟨(safe_request (a :: l)).result, (safe_request (a :: l)).attempts + 1,
        (safe_request (a :: l)).sleeps + 1⟩ := by
  simp [safe_request, h]

theorem vd_cons_none {data : List (String × String)} {f : String} {rest : List String}
    (h : data.lookup f = none) : validate_data data (f :: rest) = false := by
  simp [validate_data, h]

theorem vd_cons_bad {data : List (String × String)} {f v : String} {rest : List String}
    (h : data.lookup f = some v) (hv : (v == "" || sentinelValues.contains v) = true) :
    validate_data data (f :: rest) = false := by
  simp only [validate_data, h]
  rw [if_pos hv]

theorem vd_cons_good {data : List (String × String)} {f v : String} {rest : List String}
    (h : data.lookup f = some v) (hv : (v == "" || sentinelValues.contains v) = false) :
    validate_data data (f :: rest) = validate_data data rest := by
  simp only [validate_data, h]
  rw [if_neg (by rw [hv]; exact Bool.false_ne_true)]

theorem validate_data_true_iff (data : List (String × String)) (req : List String) :
    validate_data data req = true ↔
      ∀ f ∈ req, ∃ v, data.lookup f = some v ∧ v ≠ "" ∧ v ∉ sentinelValues := by
  induction req with
  | nil => simp [validate_data]
  | cons f rest ih =>
    cases h : data.lookup f with
    | none =>
      rw [vd_cons_none h]
      simp only [Bool.false_eq_true, false_iff, not_forall, Classical.not_imp]
      refine ⟨f, List.mem_cons_self f rest, ?_⟩
      rintro ⟨v, hv, _, _⟩
      rw [h] at hv
      cases hv
    | some v =>
      cases hv : (v == "" || sentinelValues.contains v) with
      | true =>
        rw [vd_cons_bad h hv]
        simp only [Bool.false_eq_true, false_iff, not_forall, Classical.not_imp]
        refine ⟨f, List.mem_cons_self f rest, ?_⟩
        rintro ⟨w, hw, hne, hns⟩
        rw [h, Option.some.injEq] at hw
        subst hw
        have hd : v = "" ∨ v ∈ sentinelValues := by simpa using hv
        rcases hd with h1 | h1
        · exact hne h1
        · exact hns h1
      | false =>
        rw [vd_cons_good h hv, ih]
        have hgood : ¬v = "" ∧ v ∉ sentinelValues := by simpa using hv
        constructor
        · intro hall g hg
          rcases List.mem_cons.mp hg with h' | h'
          · subst h'
            exact ⟨v, h, hgood.1, hgood.2⟩
          · exact hall g h'
        · intro hall g hg
          exact hall g (List.mem_cons_of_mem f hg)

theorem field_bad_iff (data : List (String × String)) (f : String) :
    (¬ ∃ v, data.lookup f = some v ∧ v ≠ "" ∧ v ∉ sentinelValues) ↔
      data.lookup f = none ∨
        ∃ v, data.lookup f = some v ∧ (v = "" ∨ v ∈ sentinelValues) := by
  cases h : data.lookup f with
  | none => simp [h]
  | some v =>
    simp only [h, Option.some.injEq, reduceCtorEq, false_or]
    constructor
    · intro hno
      refine ⟨v, rfl, ?_⟩
      by_contra hc
      push_neg at hc
      exact hno ⟨v, rfl, hc.1, hc.2⟩
    · rintro ⟨w, hw, hbad⟩ ⟨u, hu, hne, hns⟩
      subst hw; subst hu
      rcases hbad with h' | h'
      · exact hne h'
      · exact hns h'

theorem validate_data_false_iff (data : List (String × String)) (req : List String) :
    validate_data data req = false ↔
      ∃ f ∈ req, data.lookup f = none ∨
        ∃ v, data.lookup f = some v ∧ (v = "" ∨ v ∈ sentinelValues) := by
  rw [← Bool.not_eq_true, validate_data_true_iff]
  simp only [not_forall, Classical.not_imp]
  constructor
  · rintro ⟨f, hf, hbad⟩
    exact ⟨f, hf, (field_bad_iff data f).mp hbad⟩
  · rintro ⟨f, hf, hbad⟩
    exact ⟨f, hf, (field_bad_iff data f).mpr hbad⟩

theorem foldl_groupStep_no_match (gs : List IngreGroup)
    (hall : ∀ g ∈ gs, ingTitleMatch g = false ∧ condTitleMatch g = false) :
    ∀ acc : String × String, gs.foldl groupStep acc = acc := by
  induction gs with
  | nil => intro acc; rfl
  | cons g gs' ih =>
    intro acc
    have hg := hall g (List.mem_cons_self g gs')
    have hstep : groupStep acc g = acc := by
      simp [groupStep, hg.1, hg.2]
    rw [List.foldl_cons, hstep]
    exact ih (fun x hx => hall x (List.mem_cons_of_mem g hx)) acc

theorem paginate_getElem? (l : List MergedRecord) (page per i : Nat) :
    (paginate l page per)[i]?
      = if i < per then l[(page - 1) * per + i]? else none := by
  unfold paginate
  rw [List.getElem?_take]
  by_cases h : i < per
  · simp [h, List.getElem?_drop]
  · simp [h]

/-! ### Helper lemmas for the minute-extraction regex -/

theorem pairFree_cons {a : Char} {l : List Char} (h : pairFree (a :: l) = true) :
    pairFree l = true := by
  cases l with
  | nil => rfl
  | cons b t =>
    have := h
    simp only [pairFree, Bool.and_eq_true] at this
    exact this.2

theorem pairFree_cons_head {a b : Char} {l : List Char}
    (h : pairFree (a :: b :: l) = true) (ha : a.isDigit = true) : b ≠ '분' := by
  simp only [pairFree, Bool.and_eq_true, Bool.not_eq_true', Bool.and_eq_false_iff] at h
  rcases h.1 with h' | h'
  · rw [ha] at h'; cases h'
  · simpa using h'

theorem lastOkay_cons {a : Char} {l : List Char} (h : l ≠ []) :
    lastOkay (a :: l) = lastOkay l := by
  cases l with
  | nil => exact absurd rfl h
  | cons b t => rfl

theorem lastOkay_not_all_digits :
    ∀ u : List Char, lastOkay u = true → u ≠ [] → ¬ ∀ x ∈ u, x.isDigit = true := by
  intro u
  induction u with
  | nil => intro _ h; exact absurd rfl h
  | cons c t ih =>
    intro hlo _ hall
    cases t with
    | nil =>
      have : lastOkay [c] = !c.isDigit := rfl
      rw [this] at hlo
      have := hall c (List.mem_cons_self c [])
      simp [this] at hlo
    | cons b t' =>
      have hlo' : lastOkay (b :: t') = true := by
        rw [← lastOkay_cons (l := b :: t') (a := c) (by simp)]; exact hlo
      exact ih hlo' (by simp) (fun x hx => hall x (List.mem_cons_of_mem c hx))

theorem dropWhile_append_left (p : Char → Bool) (u v : List Char)
    (h : ¬ ∀ x ∈ u, p x = true) :
    (u ++ v).dropWhile p = u.dropWhile p ++ v := by
  induction u with
  | nil => exact absurd (by simp) h
  | cons c t ih =>
    by_cases hc : p c = true
    · rw [List.cons_append, List.dropWhile_cons_of_pos hc, List.dropWhile_cons_of_pos hc]
      apply ih
      intro hall
      exact h (fun x hx => by
        rcases List.mem_cons.mp hx with h' | h'
        · rw [h']; exact hc
        · exact hall x h')
    · have hc' : ¬ p c = true := hc
      rw [List.cons_append, List.dropWhile_cons_of_neg hc',
        List.dropWhile_cons_of_neg hc']
      rfl

theorem dropWhile_all_append {p : Char → Bool} {u : List Char} {c : Char} (w : List Char)
    (h : ∀ x ∈ u, p x = true) (hc : p c = false) :
    (u ++ c :: w).dropWhile p = c :: w := by
  have hc' : ¬ p c = true := by simp [hc]
  induction u with
  | nil =>
    rw [List.nil_append, List.dropWhile_cons_of_neg hc']
  | cons a t ih =>
    have ha : p a = true := h a (List.mem_cons_self a t)
    rw [List.cons_append, List.dropWhile_cons_of_pos ha]
    exact ih (fun x hx => h x (List.mem_cons_of_mem a hx))

theorem takeWhile_all_append {p : Char → Bool} {u : List Char} {c : Char} (w : List Char)
    (h : ∀ x ∈ u, p x = true) (hc : p c = false) :
    (u ++ c :: w).takeWhile p = u := by
  have hc' : ¬ p c = true := by simp [hc]
  induction u with
  | nil =>
    rw [List.nil_append, List.takeWhile_cons_of_neg hc']
  | cons a t ih =>
    have ha : p a = true := h a (List.mem_cons_self a t)
    rw [List.cons_append, List.takeWhile_cons_of_pos ha,
      ih (fun x hx => h x (List.mem_cons_of_mem a hx))]

theorem pairFree_dropWhile_head :
    ∀ (t : List Char) (c : Char), pairFree (c :: t) = true → c.isDigit = true →
      ((c :: t).dropWhile Char.isDigit).head? ≠ some '분' := by
  intro t
  induction t with
  | nil =>
    intro c _ hc
    rw [List.dropWhile_cons_of_pos hc]
    simp
  | cons b t' ih =>
    intro c hpf hc
    rw [List.dropWhile_cons_of_pos hc]
    by_cases hb : b.isDigit = true
    · exact ih b (pairFree_cons hpf) hb
    · have hb' : b.isDigit = false := Bool.not_eq_true _ ▸ hb
      rw [List.dropWhile_cons_of_neg (by simp [hb'])]
      have : b ≠ '분' := pairFree_cons_head hpf hc
      simpa using this

theorem findMinute_cons_hit {c : Char} {rest : List Char} (hc : c.isDigit = true)
    (hh : ((c :: rest).dropWhile Char.isDigit).head? = some '분') :
    findMinute (c :: rest) = some (digitsToNat ((c :: rest).takeWhile Char.isDigit)) := by
  simp only [findMinute]
  rw [if_pos hc, if_pos hh]

theorem findMinute_cons_miss {c : Char} {rest : List Char} (hc : c.isDigit = true)
    (hh : ((c :: rest).dropWhile Char.isDigit).head? ≠ some '분') :
    findMinute (c :: rest) = findMinute rest := by
  simp only [findMinute]
  rw [if_pos hc, if_neg hh]

theorem findMinute_cons_nondigit {c : Char} {rest : List Char} (hc : c.isDigit = false) :
    findMinute (c :: rest) = findMinute rest := by
  simp only [findMinute]
  rw [if_neg (by simp [hc])]

theorem findMinute_some_spec (s : List Char) :
    ∀ n : Nat, findMinute s = some n → FirstMinuteSpec s n := by
  induction s with
  | nil => intro n h; cases h
  | cons c rest ih =>
    intro n h
    by_cases hc : c.isDigit = true
    · by_cases hh : ((c :: rest).dropWhile Char.isDigit).head? = some '분'
      · rw [findMinute_cons_hit hc hh] at h
        obtain ⟨t, ht⟩ : ∃ t, (c :: rest).dropWhile Char.isDigit = '분' :: t := by
          cases hdw : (c :: rest).dropWhile Char.isDigit with
          | nil => rw [hdw] at hh; cases hh
          | cons x xs =>
            rw [hdw] at hh
            simp only [List.head?_cons, Option.some.injEq] at hh
            exact ⟨xs, by rw [hh]⟩
        refine ⟨[], (c :: rest).takeWhile Char.isDigit, t, ?_, ?_, ?_, rfl, rfl, ?_⟩
        · rw [List.nil_append, ← ht, List.takeWhile_append_dropWhile]
        · rw [List.takeWhile_cons_of_pos hc]; simp
        · rw [List.all_eq_true]
          intro x hx
          exact List.mem_takeWhile_imp hx
        · exact Option.some.inj h
      · rw [findMinute_cons_miss hc hh] at h
        obtain ⟨pre, run, post, hs, hrun, hall, hpf, hlo, hd⟩ := ih n h
        have hpre_ne : pre ≠ [] := by
          intro he
          subst he
          rw [List.nil_append] at hs
          apply hh
          have hdw : (c :: rest).dropWhile Char.isDigit = '분' :: post := by
            rw [List.dropWhile_cons_of_pos hc, hs]
            exact dropWhile_all_append post (List.all_eq_true.mp hall) (by decide)
          rw [hdw]
          rfl
        obtain ⟨p, ps, hp⟩ := List.exists_cons_of_ne_nil hpre_ne
        subst hp
        have hp_ne : p ≠ '분' := by
          intro he
          subst he
          apply hh
          rw [List.dropWhile_cons_of_pos hc, hs]
          simp only [List.cons_append]
          rw [List.dropWhile_cons_of_neg (by decide)]
          rfl
        refine ⟨c :: p :: ps, run, post, ?_, hrun, hall, ?_, ?_, hd⟩
        · rw [hs]
          rfl
        · show (!(c.isDigit && p == '분') && pairFree (p :: ps)) = true
          rw [hpf]
          simp [hp_ne]
        · rw [lastOkay_cons (by simp)]
          exact hlo
    · have hc' : c.isDigit = false := Bool.not_eq_true _ ▸ hc
      rw [findMinute_cons_nondigit hc'] at h
      obtain ⟨pre, run, post, hs, hrun, hall, hpf, hlo, hd⟩ := ih n h
      refine ⟨c :: pre, run, post, by rw [hs]; rfl, hrun, hall, ?_, ?_, hd⟩
      · cases pre with
        | nil => rfl
        | cons p ps =>
          show (!(c.isDigit && p == '분') && pairFree (p :: ps)) = true
          rw [hc', hpf]
          rfl
      · cases pre with
        | nil =>
          show (!c.isDigit) = true
          rw [hc']
          rfl
        | cons p ps =>
          rw [lastOkay_cons (by simp)]
          exact hlo

theorem spec_findMinute :
    ∀ (pre run post : List Char), run ≠ [] → run.all Char.isDigit = true →
      pairFree pre = true → lastOkay pre = true →
      findMinute (pre ++ run ++ '분' :: post) = some (digitsToNat run) := by
  intro pre
  induction pre with
  | nil =>
    intro run post hrun hall _ _
    obtain ⟨r, rs, hr⟩ := List.exists_cons_of_ne_nil hrun
    subst hr
    have hallmem : ∀ x ∈ r :: rs, Char.isDigit x = true := List.all_eq_true.mp hall
    have hrd : r.isDigit = true := hallmem r (List.mem_cons_self r rs)
    have hh : ((r :: (rs ++ '분' :: post)).dropWhile Char.isDigit).head? = some '분' := by
      have hdw : (r :: (rs ++ '분' :: post)).dropWhile Char.isDigit = '분' :: post :=
        dropWhile_all_append post hallmem (by decide)
      rw [hdw]
      rfl
    show findMinute (r :: (rs ++ '분' :: post)) = some (digitsToNat (r :: rs))
    rw [findMinute_cons_hit hrd hh]
    have htw : (r :: (rs ++ '분' :: post)).takeWhile Char.isDigit = r :: rs :=
      takeWhile_all_append post hallmem (by decide)
    rw [htw]
  | cons c pre' ih =>
    intro run post hrun hall hpf hlo
    have hpf' : pairFree pre' = true := pairFree_cons hpf
    have hlo' : lastOkay pre' = true := by
      cases pre' with
      | nil => rfl
      | cons p ps =>
        rw [← lastOkay_cons (a := c) (by simp)]
        exact hlo
    have ihres := ih run post hrun hall hpf' hlo'
    show findMinute (c :: (pre' ++ run ++ '분' :: post)) = some (digitsToNat run)
    by_cases hc : c.isDigit = true
    · have hpre' : pre' ≠ [] := by
        intro he
        subst he
        have hone : lastOkay [c] = true := hlo
        rw [show lastOkay [c] = !c.isDigit from rfl, hc] at hone
        cases hone
      have hnotall : ¬ ∀ x ∈ c :: pre', Char.isDigit x = true :=
        lastOkay_not_all_digits (c :: pre') hlo (by simp)
      have hdw_split : ((c :: pre') ++ (run ++ '분' :: post)).dropWhile Char.isDigit
          = (c :: pre').dropWhile Char.isDigit ++ (run ++ '분' :: post) :=
        dropWhile_append_left Char.isDigit (c :: pre') (run ++ '분' :: post) hnotall
      have hdw_ne : (c :: pre').dropWhile Char.isDigit ≠ [] := by
        intro he
        rw [List.dropWhile_eq_nil_iff] at he
        exact hnotall (fun x hx => by simpa using he x hx)
      have hhead : ((c :: pre').dropWhile Char.isDigit).head? ≠ some '분' :=
        pairFree_dropWhile_head pre' c hpf hc
      have hh : ((c :: (pre' ++ run ++ '분' :: post)).dropWhile Char.isDigit).head?
          ≠ some '분' := by
        have heq : c :: (pre' ++ run ++ '분' :: post)
            = (c :: pre') ++ (run ++ '분' :: post) := by
          simp
        rw [heq, hdw_split]
        obtain ⟨x, xs, hx⟩ := List.exists_cons_of_ne_nil hdw_ne
        rw [hx]
        rw [hx] at hhead
        simpa using hhead
      rw [findMinute_cons_miss hc hh]
      exact ihres
    · have hc' : c.isDigit = false := Bool.not_eq_true _ ▸ hc
      rw [findMinute_cons_nondigit hc']
      exact ihres

theorem hasPair_isSome :
    ∀ s : List Char, HasMinutePair s → (findMinute s).isSome = true := by
  intro s
  induction s with
  | nil =>
    rintro ⟨pre, d, post, hs, _⟩
    cases pre <;> cases hs
  | cons c t ih =>
    rintro ⟨pre, d, post, hs, hd⟩
    cases pre with
    | nil =>
      rw [List.nil_append] at hs
      injection hs with h1 h2
      subst h1
      subst h2
      have hh : ((c :: '분' :: post).dropWhile Char.isDigit).head? = some '분' := by
        rw [List.dropWhile_cons_of_pos hd, List.dropWhile_cons_of_neg (by decide)]
        rfl
      rw [findMinute_cons_hit hd hh]
      rfl
    | cons p ps =>
      rw [List.cons_append] at hs
      injection hs with h1 h2
      subst h1
      have hpair : HasMinutePair t := ⟨ps, d, post, h2, hd⟩
      by_cases hc : c.isDigit = true
      · by_cases hh : ((c :: t).dropWhile Char.isDigit).head? = some '분'
        · rw [findMinute_cons_hit hc hh]
          rfl
        · rw [findMinute_cons_miss hc hh]
          exact ih hpair
      · rw [findMinute_cons_nondigit (Bool.not_eq_true _ ▸ hc)]
        exact ih hpair

theorem some_hasPair (s : List Char) (n : Nat) (h : findMinute s = some n) :
    HasMinutePair s := by
  obtain ⟨pre, run, post, hs, hrun, hall, _, _, _⟩ := findMinute_some_spec s n h
  rcases List.eq_nil_or_concat run with he | ⟨rs, d, hrd⟩
  · exact absurd he hrun
  · subst hrd
    refine ⟨pre ++ rs, d, post, ?_, ?_⟩
    · rw [hs]
      simp [List.append_assoc]
    · exact List.all_eq_true.mp hall d (by simp)

/-! ## Claim theorems -/

/-- C1 (counterexample): a transport answering HTTP 404 on the first
attempt and 200 afterwards is *retried* by `safe_request` — the call
performs a second attempt and returns the 200 response, instead of being a
terminal failure after exactly 1 attempt as the claim states. -/
theorem C1_counterexample :
    safe_request [Outcome.resp 404, Outcome.resp 200, Outcome.resp 200]
        = ⟨some 200, 2, 1⟩ ∧
    ¬((safe_request [Outcome.resp 404, Outcome.resp 200, Outcome.resp 200]).result = none ∧
      (safe_request [Outcome.resp 404, Outcome.resp 200, Outcome.resp 200]).attempts = 1) := by
  decide

/-- C1 (amended): `safe_request` has no fatal status classification.  Every
failing attempt — a transport exception or *any* status in `[400, 600)`,
404 and 429 and 503 alike — is retried identically, with one backoff sleep,
as long as attempts remain; a status outside `[400, 600)` (in particular
any 2xx) is returned as Success on the attempt that produced it. -/
theorem C1_no_fatal_classification :
    (∀ (o : Outcome) (rest : List Outcome), attemptFails o = true → rest ≠ [] →
      safe_request (o :: rest) =
        ⟨(safe_request rest).result, (safe_request rest).attempts + 1,
          (safe_request rest).sleeps + 1⟩) ∧
    (attemptFails (Outcome.resp 404) = true ∧ attemptFails (Outcome.resp 429) = true ∧
      attemptFails (Outcome.resp 500) = true ∧ attemptFails (Outcome.resp 503) = true ∧
      attemptFails Outcome.exc = true) ∧
    (∀ s : Nat, 200 ≤ s → s < 300 →
      attemptFails (Outcome.resp s) = false ∧
      ∀ rest : List Outcome, safe_request (Outcome.resp s :: rest) = ⟨some s, 1, 0⟩) := by
  refine ⟨?_, by decide, ?_⟩
  · intro o rest ho hr
    match rest with
    | [] => exact absurd rfl hr
    | a :: l => exact safe_request_fail_cons o a l ho
  · intro s h1 h2
    have hf : attemptFails (Outcome.resp s) = false := by
      simp only [attemptFails, raisesForStatus, decide_eq_false_iff_not]
      omega
    exact ⟨hf, fun rest => safe_request_success (Outcome.resp s) rest hf⟩

/-- C1 (witness): the amended theorem applied to the 404-then-200
transport with the default retry budget. -/
theorem C1_no_fatal_classification_witness :
    safe_request [Outcome.resp 404, Outcome.resp 200] = ⟨some 200, 2, 1⟩ := by
  have h := C1_no_fatal_classification.1 (Outcome.resp 404) [Outcome.resp 200]
    (by decide) (by decide)
  rw [h]; decide

/-- C2: in `RobustRecipeCrawler.safe_request` the session checked out at
entry is handed back to the pool zero times when the request succeeds (the
`return response` inside the loop skips `return_session`), and exactly once
only on the exhaustion path that returns `None` — contradicting the
claimed one-release-per-checkout pairing on every path. -/
theorem C2_robust_session_leak :
    robust_safe_request [Outcome.resp 200] = (some 200, 0) ∧
    robust_safe_request [Outcome.resp 503, Outcome.resp 200] = (some 200, 0) ∧
    robust_safe_request [Outcome.resp 503, Outcome.exc, Outcome.resp 404] = (none, 1) := by
  decide

/-- C3 (counterexample): the aggregator performs no duplicate-ID
rejection: when two completed batches each contribute a record with ID "1",
the final store holds both of them. -/
theorem C3_counterexample :
    runAggregate [[sampleA], [sampleA]] = [sampleA, sampleA] ∧
    ¬ countID "1" (runAggregate [[sampleA], [sampleA]]) ≤ 1 := by
  decide

/-- C3 (amended): the aggregate store is exactly the concatenation of the
completed batches, in completion order: no record is rejected or counted as
a duplicate, and a given ID occurs in the store as many times as the
batches contributed it. -/
theorem C3_store_is_concatenation :
    (∀ batches : List (List SummaryRecord), runAggregate batches = batches.flatten) ∧
    (∀ (i : String) (batches : List (List SummaryRecord)),
      countID i (runAggregate batches) = (batches.map (countID i)).sum) := by
  refine ⟨runAggregate_eq_join, ?_⟩
  intro i batches
  rw [runAggregate_eq_join]
  induction batches with
  | nil => rfl
  | cons b bs ih =>
    simp only [List.flatten_cons, List.map_cons, List.sum_cons, countID,
      List.filter_append, List.length_append] at *
    omega

/-- C4: the merged dataset is the inner join by ID — an ID appears among
the merged rows iff it appears among the summary rows and among the detail
rows; on summaries with IDs {"1","2","3"} and details with IDs {"1","3"}
the merge consists of exactly the 2 records with IDs "1" and "3". -/
theorem C4_merge_is_inner_join :
    (∀ (foods : List SummaryRecord) (recipes : List DetailRecord) (i : String),
      (∃ m ∈ pd_merge_inner foods recipes, m.ID = i) ↔
        (∃ f ∈ foods, f.ID = i) ∧ (∃ r ∈ recipes, r.ID = i)) ∧
    ((pd_merge_inner [sampleA, sampleB, sampleC] [sampleD1, sampleD3]).map MergedRecord.ID
        = ["1", "3"] ∧
      (pd_merge_inner [sampleA, sampleB, sampleC] [sampleD1, sampleD3]).length = 2) := by
  refine ⟨?_, by decide, by decide⟩
  intro foods recipes i
  constructor
  · rintro ⟨m, hm, hid⟩
    simp only [pd_merge_inner, List.mem_flatMap, List.mem_map, List.mem_filter,
      beq_iff_eq] at hm
    obtain ⟨f, hf, r, ⟨hr, hrid⟩, hmr⟩ := hm
    subst hmr
    simp only [mergeRows] at hid
    exact ⟨⟨f, hf, hid⟩, ⟨r, hr, hrid.trans hid⟩⟩
  · rintro ⟨⟨f, hf, hfid⟩, ⟨r, hr, hrid⟩⟩
    refine ⟨mergeRows f r, ?_, hfid⟩
    simp only [pd_merge_inner, List.mem_flatMap, List.mem_map, List.mem_filter,
      beq_iff_eq]
    exact ⟨f, hf, r, ⟨hr, hrid.trans hfid.symm⟩, rfl⟩

/-- C5: `safe_request` performs at most as many fetch attempts as the
retry budget and at most budget − 1 backoff sleeps; if the first `k`
attempts fail retryably and attempt `k+1` yields a non-raising status it
returns that status after exactly `k+1` attempts and `k` sleeps; if every
attempt fails it returns `none` after exactly budget attempts and
budget − 1 sleeps. -/
theorem C5_retry_budget :
    (∀ (pre : List Outcome) (s : Nat) (rest : List Outcome),
      (∀ o ∈ pre, attemptFails o = true) → raisesForStatus s = false →
      safe_request (pre ++ Outcome.resp s :: rest)
        = ⟨some s, pre.length + 1, pre.length⟩) ∧
    (∀ outs : List Outcome, (∀ o ∈ outs, attemptFails o = true) →
      safe_request outs = ⟨none, outs.length, outs.length - 1⟩) ∧
    (∀ outs : List Outcome, (safe_request outs).attempts ≤ outs.length ∧
      (safe_request outs).sleeps ≤ outs.length - 1) := by
  refine ⟨?_, ?_, ?_⟩
  · intro pre s rest hpre hs
    induction pre with
    | nil =>
      simpa using safe_request_success (Outcome.resp s) rest
        (by simpa [attemptFails] using hs)
    | cons p ps ih =>
      have hp : attemptFails p = true := hpre p (List.mem_cons_self p ps)
      have hrest : ∀ o ∈ ps, attemptFails o = true :=
        fun o ho => hpre o (List.mem_cons_of_mem p ho)
      obtain ⟨a, l, hal⟩ : ∃ a l, ps ++ Outcome.resp s :: rest = a :: l := by
        cases ps with
        | nil => exact ⟨_, _, rfl⟩
        | cons x xs => exact ⟨_, _, rfl⟩
      have := safe_request_fail_cons p a l hp
      rw [List.cons_append, hal, this, ← hal, ih hrest]
      simp
  · intro outs hall
    induction outs with
    | nil => rfl
    | cons o rest ih =>
      have ho : attemptFails o = true := hall o (List.mem_cons_self o rest)
      cases rest with
      | nil => simpa using safe_request_fail_last o ho
      | cons a l =>
        have hrest : ∀ x ∈ a :: l, attemptFails x = true :=
          fun x hx => hall x (List.mem_cons_of_mem o hx)
        rw [safe_request_fail_cons o a l ho, ih hrest]
        simp
  · intro outs
    induction outs with
    | nil => exact ⟨Nat.le_refl 0, Nat.le_refl 0⟩
    | cons o rest ih =>
      by_cases ho : attemptFails o = true
      · cases rest with
        | nil =>
          rw [safe_request_fail_last o ho]
          exact ⟨Nat.le_refl 1, Nat.zero_le 0⟩
        | cons a l =>
          rw [safe_request_fail_cons o a l ho]
          refine ⟨Nat.succ_le_succ ih.1, ?_⟩
          have := ih.2
          simp only [List.length_cons] at *
          omega
      · rw [safe_request_success o rest (Bool.not_eq_true _ ▸ ho : attemptFails o = false)]
        exact ⟨Nat.succ_le_succ (Nat.zero_le _), Nat.zero_le _⟩

/-- C5 (witness): a transport answering 503, 503, 200 yields Success after
exactly 3 attempts with exactly 2 backoff sleeps. -/
theorem C5_retry_budget_witness :
    safe_request [Outcome.resp 503, Outcome.resp 503, Outcome.resp 200]
      = ⟨some 200, 3, 2⟩ :=
  C5_retry_budget.1 [Outcome.resp 503, Outcome.resp 503] 200 [] (by decide) (by decide)

/-- C6 (counterexample): the final store is order-dependent as a dataset:
the same two batches completing in the two possible orders yield different
final lists. -/
theorem C6_counterexample :
    runAggregate [[sampleA], [sampleB]] ≠ runAggregate [[sampleB], [sampleA]] := by
  decide

/-- C6 (amended): the final store is independent of batch completion order
*up to permutation*: runs whose per-batch records agree and whose batch
lists are permutations of each other produce permutation-equal stores (the
same records with the same multiplicities). -/
theorem C6_order_independent_up_to_perm :
    ∀ b₁ b₂ : List (List SummaryRecord), b₁.Perm b₂ →
      (runAggregate b₁).Perm (runAggregate b₂) := by
  intro b₁ b₂ h
  rw [runAggregate_eq_join, runAggregate_eq_join]
  exact h.flatten

/-- C6 (witness): the amended theorem applied to two singleton batches
completing in swapped orders. -/
theorem C6_order_independent_witness :
    (runAggregate [[sampleA], [sampleB]]).Perm (runAggregate [[sampleB], [sampleA]]) :=
  C6_order_independent_up_to_perm [[sampleA], [sampleB]] [[sampleB], [sampleA]]
    (List.Perm.swap [sampleB] [sampleA] [])

/-- C7: `validate_data` returns false iff some required field is absent
from the record, empty, or one of the defined sentinel values; a record
therefore passes the summary check iff both ID and Title are present,
non-empty and non-sentinel; and a record failing validation is dropped
from the page's result while the records around it are kept. -/
theorem C7_validator :
    (∀ (data : List (String × String)) (req : List String),
      validate_data data req = false ↔
        ∃ f ∈ req, data.lookup f = none ∨
          ∃ v, data.lookup f = some v ∧ (v = "" ∨ v ∈ sentinelValues)) ∧
    (∀ data : List (String × String),
      validate_data data summaryRequired = true ↔
        (∃ v, data.lookup "ID" = some v ∧ v ≠ "" ∧ v ∉ sentinelValues) ∧
        (∃ v, data.lookup "Title" = some v ∧ v ≠ "" ∧ v ∉ sentinelValues)) ∧
    (∀ (pre : List (List (String × String))) (bad : List (String × String))
        (post : List (List (String × String))),
      validate_data bad summaryRequired = false →
      filterValid (pre ++ bad :: post) = filterValid pre ++ filterValid post) := by
  refine ⟨validate_data_false_iff, ?_, ?_⟩
  · intro data
    rw [validate_data_true_iff]
    simp [summaryRequired, List.forall_mem_cons]
  · intro pre bad post h
    simp only [filterValid, List.filter_append, List.filter_cons, h]
    simp

/-- C7 (witness): a record whose Title is the "no title" sentinel fails
validation and is dropped from the batch without dropping its
neighbours. -/
theorem C7_validator_witness :
    validate_data badRec summaryRequired = false ∧
    filterValid [goodRec, badRec, goodRec] = [goodRec, goodRec] := by
  have h : validate_data badRec summaryRequired = false := by decide
  refine ⟨h, ?_⟩
  have h2 := C7_validator.2.2 [goodRec] badRec [goodRec] h
  exact h2.trans (by decide)

/-- C9: for page ≥ 1 and per_page ∈ [1, 100], the listing and search
endpoints return exactly the slice of the (filtered) merged dataset from
index (page−1)·per_page up to but excluding page·per_page — element `i` of
the response is element (page−1)·per_page + i of the dataset when i <
per_page, so at most per_page records and the empty list past the end —
and search's total_count is the size of the whole filtered dataset,
independent of page and per_page. -/
theorem C9_pagination :
    ∀ (df : List MergedRecord) (q a d : String) (mt : Option Nat) (page per : Nat),
      1 ≤ page → 1 ≤ per → per ≤ 100 →
      (∀ i : Nat, (get_recipes df page per)[i]?
          = if i < per then df[(page - 1) * per + i]? else none) ∧
      (∀ i : Nat, (search_recipes q a d mt page per df).recipes[i]?
          = if i < per then (applyFilters q a d mt df)[(page - 1) * per + i]? else none) ∧
      (search_recipes q a d mt page per df).total_count
          = (applyFilters q a d mt df).length ∧
      (get_recipes df page per).length ≤ per ∧
      (search_recipes q a d mt page per df).recipes.length ≤ per ∧
      (df.length ≤ (page - 1) * per → get_recipes df page per = []) := by
  intro df q a d mt page per h1 h2 h3
  refine ⟨fun i => paginate_getElem? df page per i,
    fun i => paginate_getElem? (applyFilters q a d mt df) page per i, rfl, ?_, ?_, ?_⟩
  · show (paginate df page per).length ≤ per
    unfold paginate
    rw [List.length_take]
    exact min_le_left _ _
  · show (paginate (applyFilters q a d mt df) page per).length ≤ per
    unfold paginate
    rw [List.length_take]
    exact min_le_left _ _
  · intro hlen
    show paginate df page per = []
    unfold paginate
    rw [List.drop_eq_nil_of_le hlen]
    simp

/-- C9 (witness): the pagination theorem applied to a one-record dataset
with page 1 and per_page 20. -/
theorem C9_pagination_witness :
    1 ≤ (1 : Nat) ∧ 1 ≤ (20 : Nat) ∧ 20 ≤ (100 : Nat) ∧
    (get_recipes [demoTimed] 1 20).length ≤ 20 :=
  ⟨by decide, by decide, by decide,
    (C9_pagination [demoTimed] "" "" "" none 1 20 (by decide) (by decide) (by decide)).2.2.2.1⟩

/-- C10: in the structured ingredient strategy, each titled group updates
at most one output field — a title containing '재료' or '레시피' overwrites
the Ingredient text (keeping the Condiment text), otherwise a title
containing '양념' overwrites the Condiment text (keeping the Ingredient
text), and any other group leaves both untouched (silently dropped); when
no group matches, both outputs are exactly the sentinels '재료 없음' and
'양념 없음', as they are when there are no titled groups and no fallback
title/body pair. -/
theorem C10_ingredient_groups :
    (∀ (gs : List IngreGroup) (fb : Option (String × String)), gs ≠ [] →
      extract_ingredients ⟨gs, fb⟩ = extractGroups gs) ∧
    (∀ (gs : List IngreGroup) (g : IngreGroup),
      extractGroups (gs ++ [g]) =
        if ingTitleMatch g then (renderGroup g, (extractGroups gs).2)
        else if condTitleMatch g then ((extractGroups gs).1, renderGroup g)
        else extractGroups gs) ∧
    (∀ gs : List IngreGroup,
      (∀ g ∈ gs, ingTitleMatch g = false ∧ condTitleMatch g = false) →
      extractGroups gs = ("재료 없음", "양념 없음")) ∧
    extract_ingredients ⟨[], none⟩ = ("재료 없음", "양념 없음") := by
  refine ⟨?_, ?_, ?_, rfl⟩
  · intro gs fb hne
    cases gs with
    | nil => exact absurd rfl hne
    | cons g gs' => rfl
  · intro gs g
    show (gs ++ [g]).foldl groupStep ("재료 없음", "양념 없음") = _
    rw [List.foldl_append]
    rfl
  · intro gs hall
    exact foldl_groupStep_no_match gs hall ("재료 없음", "양념 없음")

/-- C10 (witness): a keyword-free group leaves the sentinels untouched,
and appending a '양념'-titled group overwrites only the Condiment field. -/
theorem C10_ingredient_groups_witness :
    extractGroups [demoNoMatch] = ("재료 없음", "양념 없음") ∧
    extractGroups ([demoNoMatch] ++ [demoSauce]) = ("재료 없음", renderGroup demoSauce) := by
  refine ⟨C10_ingredient_groups.2.2.1 [demoNoMatch] (by decide), ?_⟩
  rw [C10_ingredient_groups.2.1 [demoNoMatch] demoSauce]
  decide

/-- C8: the `max_time` filter keeps exactly the rows whose
`Preparation_Time` contains a digit run immediately preceding '분', with
the leftmost such number at most `max_time`: `findMinute` returns `some n`
iff the string decomposes around its leftmost maximal digit run followed by
'분' with value `n`, returns `none` iff no digit is immediately followed by
'분' (such rows never pass the filter), membership in the filtered frame is
exactly "row present and extracted minutes ≤ max_time", and concretely a
"30분 이내" row is kept at max_time 30 and dropped at max_time 20. -/
theorem C8_max_time_filter :
    (∀ (s : List Char) (n : Nat), findMinute s = some n ↔ FirstMinuteSpec s n) ∧
    (∀ s : List Char, findMinute s = none ↔ ¬ HasMinutePair s) ∧
    (∀ (df : List MergedRecord) (t : Nat) (r : MergedRecord), 0 < t →
      (r ∈ maxTimeFilter (some t) df ↔
        r ∈ df ∧ ∃ n, findMinute r.Preparation_Time.data = some n ∧ n ≤ t)) ∧
    (maxTimeFilter (some 30) [demoTimed] = [demoTimed] ∧
      maxTimeFilter (some 20) [demoTimed] = [] ∧
      findMinute "30분 이내".data = some 30 ∧
      findMinute "1시간".data = none ∧
      findMinute "10분 20분".data = some 10) := by
  refine ⟨?_, ?_, ?_, by decide, by decide, by decide, by decide, by decide⟩
  · intro s n
    constructor
    · exact findMinute_some_spec s n
    · rintro ⟨pre, run, post, hs, hrun, hall, hpf, hlo, hd⟩
      rw [hs, spec_findMinute pre run post hrun hall hpf hlo, hd]
  · intro s
    constructor
    · intro h hpair
      have := hasPair_isSome s hpair
      rw [h] at this
      cases this
    · intro hnp
      cases hfm : findMinute s with
      | none => rfl
      | some n => exact absurd (some_hasPair s n hfm) hnp
  · intro df t r ht
    have ht' : ¬ t = 0 := by omega
    show r ∈ (if t = 0 then df else df.filter _) ↔ _
    rw [if_neg ht', List.mem_filter]
    constructor
    · rintro ⟨hr, hp⟩
      refine ⟨hr, ?_⟩
      cases hfm : findMinute r.Preparation_Time.data with
      | none => simp [hfm] at hp
      | some m =>
        simp only [hfm, decide_eq_true_eq] at hp
        exact ⟨m, rfl, hp⟩
    · rintro ⟨hr, m, hm, hle⟩
      refine ⟨hr, ?_⟩
      simp only [hm, decide_eq_true_eq]
      exact hle

/-- C8 (witness): the filter-membership characterization applied at
max_time 30 to the "30분 이내" row. -/
theorem C8_max_time_filter_witness :
    0 < 30 ∧
    (demoTimed ∈ maxTimeFilter (some 30) [demoTimed] ↔
      demoTimed ∈ [demoTimed] ∧
      ∃ n, findMinute demoTimed.Preparation_Time.data = some n ∧ n ≤ 30) :=
  ⟨by decide, C8_max_time_filter.2.2.1 [demoTimed] 30 demoTimed (by decide)⟩

end ManGeRecipe
